import Mathlib

/-!
Shallow embedding of the password generator engine (`script.js`).

Randomness is modelled by an explicit tape of pre-accepted uniform samples:
every call of the sampler at modulus `n` consumes one tape entry `t` and
yields `t % n`, and additionally appends `n` to a log of choice
cardinalities, so that the randomness actually spent by a run can be read
off the log.  The rejection-sampling core (`secureRandomInt`) is modelled
separately on the raw 32-bit stream.  All real-valued entropy arithmetic is
modelled over `ℝ` with `Real.logb 2`.
-/

namespace PwdGen

/-- Tape of accepted uniform samples feeding the generators. -/
abbrev Tape := List Nat

/-- One accepted draw at modulus `n`: consumes a tape entry `t`, yields
`t % n` (the value an accepted raw sample reduces to), the remaining tape,
and the one-entry log recording the cardinality `n` of this choice.  An
exhausted tape yields `0` (concrete runs below always supply enough
entries). -/
def secureRandomIntT (n : Nat) : Tape → Nat × Tape × List Nat
  | [] => (0, [], [n])
  | t :: ts => (t % n, ts, [n])

/-- Source `secureChoice(arr)` = `arr[secureRandomInt(arr.length)]`, on the
tape model; `d` is the (never hit when the list is nonempty) default. -/
def secureChoiceT (arr : List Char) (d : Char) (tape : Tape) :
    Char × Tape × List Nat :=
  let r := secureRandomIntT arr.length tape
  (arr.getD r.1 d, r.2.1, r.2.2)

/-- Source constant `SYMBOLS` (27 characters). -/
def SYMBOLS : List Char :=
  ['!', '@', '#', '$', '%', '^', '&', '*', '(', ')', '-', '_', '=', '+',
   '[', ']', '\x7b', '\x7d', ';', ':', ',', '.', '/', '?', '<', '>', '~']

/-- Source constant `LEET_MAP`, as a partial map on characters. -/
def LEET_MAP : Char → Option (List Char)
  | 'a' => some ['4', '@']
  | 'b' => some ['8']
  | 'e' => some ['3']
  | 'g' => some ['9']
  | 'i' => some ['1', '!']
  | 'l' => some ['1', '|']
  | 'o' => some ['0']
  | 's' => some ['5', '$']
  | 't' => some ['7']
  | 'z' => some ['2']
  | _ => none

/-- The source's `/[a-zA-Z]/` test. -/
def isAsciiAlpha (c : Char) : Bool :=
  ('a' ≤ c && c ≤ 'z') || ('A' ≤ c && c ≤ 'Z')

/-- Output of `randomizeCapitalization`: transformed text, count of
alphabetic characters touched, remaining tape, draw log. -/
structure CapOut where
  text : List Char
  lettersCount : Nat
  tape : Tape
  log : List Nat

/-- Source `randomizeCapitalization(text)`: every alphabetic character flips
a fair coin (upper on 1, lower on 0); other characters pass through. -/
def randomizeCapitalization : List Char → Tape → CapOut
  | [], tape => ⟨[], 0, tape, []⟩
  | c :: cs, tape =>
    if isAsciiAlpha c then
      let r := secureRandomIntT 2 tape
      let rest := randomizeCapitalization cs r.2.1
      ⟨(if r.1 = 1 then c.toUpper else c.toLower) :: rest.text,
       rest.lettersCount + 1, rest.tape, r.2.2 ++ rest.log⟩
    else
      let rest := randomizeCapitalization cs tape
      ⟨c :: rest.text, rest.lettersCount, rest.tape, rest.log⟩

/-- Output of `applyLeet`: transformed text, recorded candidate-set sizes,
remaining tape, draw log. -/
structure LeetOut where
  text : List Char
  choices : List Nat
  tape : Tape
  log : List Nat

/-- Source `applyLeet(text)`: each character whose lower-cased form is in
`LEET_MAP` draws uniformly from `original :: alternatives` and records that
candidate-set size; other characters pass through. -/
def applyLeet : List Char → Tape → LeetOut
  | [], tape => ⟨[], [], tape, []⟩
  | c :: cs, tape =>
    match LEET_MAP c.toLower with
    | some alts =>
      let opts := c :: alts
      let r := secureChoiceT opts c tape
      let rest := applyLeet cs r.2.1
      ⟨r.1 :: rest.text, opts.length :: rest.choices, rest.tape,
       r.2.2 ++ rest.log⟩
    | none =>
      let rest := applyLeet cs tape
      ⟨c :: rest.text, rest.choices, rest.tape, rest.log⟩

/-- Pool flags handed to `insertExtras`. -/
structure InsertOpts where
  digits : Bool
  symbols : Bool

/-- One inserted value, as in the body of the first loop of `insertExtras`:
`pickType` is a fair coin when both classes are enabled, else fixed to the
enabled class; a symbol draws uniformly from `SYMBOLS`, a digit from the ten
digit characters. -/
def pickInsertValue (opts : InsertOpts) (tape : Tape) :
    Char × Tape × List Nat :=
  let pt :=
    if opts.symbols && opts.digits then secureRandomIntT 2 tape
    else ((if opts.symbols then 1 else 0), tape, [])
  if pt.1 = 1 then
    let s := secureChoiceT SYMBOLS '!' pt.2.1
    (s.1, s.2.1, pt.2.2 ++ s.2.2)
  else
    let d := secureRandomIntT 10 pt.2.1
    (Char.ofNat (48 + d.1), d.2.1, pt.2.2 ++ d.2.2)

/-- The first loop of `insertExtras`: draw `k` values. -/
def pickInsertValues (opts : InsertOpts) : Nat → Tape → List Char × Tape × List Nat
  | 0, tape => ([], tape, [])
  | Nat.succ k, tape =>
    let v := pickInsertValue opts tape
    let rest := pickInsertValues opts k v.2.1
    (v.1 :: rest.1, rest.2.1, v.2.2 ++ rest.2.2)

/-- The second loop of `insertExtras`: each value is spliced in at a
position drawn uniformly from `0 .. arr.length` of the current array. -/
def insertAtPositions : List Char → List Char → Tape → List Char × Tape × List Nat
  | arr, [], tape => (arr, tape, [])
  | arr, v :: vs, tape =>
    let p := secureRandomIntT (arr.length + 1) tape
    let rest := insertAtPositions (arr.take p.1 ++ v :: arr.drop p.1) vs p.2.1
    (rest.1, rest.2.1, p.2.2 ++ rest.2.2)

/-- Output of `insertExtras`: final text plus the sub-record
`(count, choiceSize, baseLen)` the source returns, remaining tape, log. -/
structure InsertOut where
  text : List Char
  count : Nat
  choiceSize : Nat
  baseLen : Nat
  tape : Tape
  log : List Nat

/-- Source `insertExtras(text, opts)`: draw `count` uniformly from
`1 .. maxInsert` with `maxInsert = min(4, max(1, ceil(baseLen / 6)))`, then
draw the values, then splice each value in at a fresh uniform position. -/
def insertExtras (text : List Char) (opts : InsertOpts) (tape : Tape) : InsertOut :=
  let baseLen := text.length
  let maxInsert := min 4 (max 1 ((baseLen + 5) / 6))
  let c := secureRandomIntT maxInsert tape
  let count := 1 + c.1
  let ins := pickInsertValues opts count c.2.1
  let fin := insertAtPositions text ins.1 ins.2.1
  let choiceSize :=
    if opts.symbols && opts.digits then SYMBOLS.length + 10
    else if opts.symbols then SYMBOLS.length else 10
  ⟨fin.1, ins.1.length, choiceSize, baseLen, fin.2.1,
   c.2.2 ++ ins.2.2 ++ fin.2.2⟩

/-- Passphrase-mode options (the source's `opts` object). -/
structure PassOpts where
  numWords : Nat
  separator : String
  personal : String
  enableCap : Bool
  enableLeet : Bool
  enableInsertExtras : Bool

/-- The `transforms.insertions` sub-record. -/
structure Insertions where
  count : Nat
  choiceSize : Nat

/-- The source's `transforms` consumption record. -/
structure Transforms where
  capitalisation : Bool
  lettersCount : Nat
  leet : Bool
  leetChoices : List Nat
  insertions : Option Insertions
  baseLen : Nat

/-- Word selection loop of `generatePassphrase`: when a personal hint longer
than one character is supplied, each word first draws `uniformIndex(5)` and
on `0` uses the normalized hint (whitespace stripped, truncated to 12,
lower-cased), else draws uniformly from the wordlist. -/
def chooseWords (wl : List String) (personal : String) :
    Nat → Tape → List String × Tape × List Nat
  | 0, tape => ([], tape, [])
  | Nat.succ k, tape =>
    if 1 < personal.length then
      let r := secureRandomIntT 5 tape
      if r.1 = 0 then
        let p := String.mk
          (((personal.data.filter (fun c => !c.isWhitespace)).take 12).map Char.toLower)
        let rest := chooseWords wl personal k r.2.1
        (p :: rest.1, rest.2.1, r.2.2 ++ rest.2.2)
      else
        let w := secureRandomIntT wl.length r.2.1
        let rest := chooseWords wl personal k w.2.1
        (wl.getD w.1 "" :: rest.1, rest.2.1, r.2.2 ++ w.2.2 ++ rest.2.2)
    else
      let w := secureRandomIntT wl.length tape
      let rest := chooseWords wl personal k w.2.1
      (wl.getD w.1 "" :: rest.1, rest.2.1, w.2.2 ++ rest.2.2)

/-- Everything `generatePassphrase` computes except the real-valued bit
count: password, consumption record, chosen words, remaining tape, and the
full draw log. -/
structure PassCore where
  password : List Char
  transforms : Transforms
  words : List String
  tape : Tape
  log : List Nat

/-- Source `generatePassphrase(opts)` up to (not including) the bit count:
word selection, join with separator, then the three optional transforms in
fixed order (capitalize, leet, insert extras, the last always with both
digit and symbol classes enabled), accumulating the consumption record
exactly as the source's `transforms` object does. -/
def generatePassphraseCore (wl : List String) (opts : PassOpts) (tape : Tape) :
    PassCore :=
  let w := chooseWords wl opts.personal opts.numWords tape
  let password0 := List.intercalate opts.separator.data (w.1.map String.data)
  let c := randomizeCapitalization password0 w.2.1
  let password1 := if opts.enableCap then c.text else password0
  let tape2 := if opts.enableCap then c.tape else w.2.1
  let log2 := if opts.enableCap then c.log else []
  let lettersCount := if opts.enableCap then c.lettersCount else 0
  let l := applyLeet password1 tape2
  let password2 := if opts.enableLeet then l.text else password1
  let tape3 := if opts.enableLeet then l.tape else tape2
  let log3 := if opts.enableLeet then l.log else []
  let leetChoices := if opts.enableLeet then l.choices else []
  let ins := insertExtras password2 ⟨true, true⟩ tape3
  let password3 := if opts.enableInsertExtras then ins.text else password2
  let tape4 := if opts.enableInsertExtras then ins.tape else tape3
  let log4 := if opts.enableInsertExtras then ins.log else []
  let insertions : Option Insertions :=
    if opts.enableInsertExtras then some ⟨ins.count, ins.choiceSize⟩ else none
  let baseLen := if opts.enableInsertExtras then ins.baseLen else password0.length
  ⟨password3,
   ⟨opts.enableCap, lettersCount, opts.enableLeet, leetChoices, insertions, baseLen⟩,
   w.1, tape4, w.2.2 ++ log2 ++ log3 ++ log4⟩

/-- The loop value of source `log2_nCr(n, k)` after the in-range guard:
`k` is reduced to `min(k, n − k)` and the sum of
`log2((n − k + i) / i)` for `i = 1 .. k` is accumulated. -/
noncomputable def log2_nCrSum (n k : ℤ) : ℝ :=
  let k2 := min k (n - k)
  (Finset.range k2.toNat).sum
    (fun i => Real.logb 2 (((n - k2 + (i + 1) : ℤ) : ℝ) / ((i + 1 : ℕ) : ℝ)))

/-- Source `log2_nCr(n, k)`: `-Infinity` (modelled as `⊥ : EReal`) when
`k < 0` or `k > n`, else the multiplicative-identity sum. -/
noncomputable def log2_nCr (n k : ℤ) : EReal :=
  if k < 0 ∨ n < k then ⊥ else ((log2_nCrSum n k : ℝ) : EReal)

/-- Source `bitsForCharacterMode(length, poolSize)`. -/
noncomputable def bitsForCharacterMode (length poolSize : Nat) : ℝ :=
  if poolSize = 0 then 0 else (length : ℝ) * Real.logb 2 (poolSize : ℝ)

/-- Source `bitsForPassphraseModel(numWords, wordlistSize, transforms)`:
base word bits plus the guarded capitalization, leet and insertion
contributions, the insertion positions being charged as
`log2 C(baseLen + k, k)`. -/
noncomputable def bitsForPassphraseModel (numWords W : Nat) (t : Transforms) : ℝ :=
  let bits0 := (numWords : ℝ) * Real.logb 2 (W : ℝ)
  let bits1 :=
    if t.capitalisation && decide (t.lettersCount ≠ 0) then
      bits0 + (t.lettersCount : ℝ) * 1
    else bits0
  let bits2 :=
    if t.leet && decide (t.leetChoices ≠ []) then
      bits1 + ((t.leetChoices.map (fun c : Nat => Real.logb 2 (c : ℝ))).sum)
    else bits1
  match t.insertions with
  | some ins =>
    if ins.count ≠ 0 then
      bits2 + (ins.count : ℝ) * Real.logb 2 (ins.choiceSize : ℝ)
        + (log2_nCr ((t.baseLen : ℤ) + (ins.count : ℤ)) (ins.count : ℤ)).toReal
    else bits2
  | none => bits2

/-- Result of source `generatePassphrase`. -/
structure PassResult where
  password : String
  bits : ℝ
  transforms : Transforms
  words : List String

/-- Source `generatePassphrase(opts)`: the core run together with its
reported bit count. -/
noncomputable def generatePassphrase (wl : List String) (opts : PassOpts)
    (tape : Tape) : PassResult :=
  let c := generatePassphraseCore wl opts tape
  ⟨String.mk c.password, bitsForPassphraseModel opts.numWords wl.length c.transforms,
   c.transforms, c.words⟩

/-- Character-mode pool flags. -/
structure PoolCfg where
  lower : Bool
  upper : Bool
  digits : Bool
  symbols : Bool

/-- The alphabet built by `generateCharacterPassword`: the concatenation of
the enabled subsets, in source order. -/
def buildPool (cfg : PoolCfg) : List Char :=
  (if cfg.lower then (List.range 26).map (fun i => Char.ofNat (97 + i)) else [])
  ++ (if cfg.upper then (List.range 26).map (fun i => Char.ofNat (65 + i)) else [])
  ++ (if cfg.digits then (List.range 10).map (fun i => Char.ofNat (48 + i)) else [])
  ++ (if cfg.symbols then SYMBOLS else [])

/-- The character-draw loop of `generateCharacterPassword`. -/
def charDraws (pool : List Char) : Nat → Tape → List Char × Tape
  | 0, tape => ([], tape)
  | Nat.succ k, tape =>
    let c := secureChoiceT pool ' ' tape
    let rest := charDraws pool k c.2.1
    (c.1 :: rest.1, rest.2)

/-- The `transforms` record of a character-mode result. -/
structure CharTransforms where
  poolSize : Nat
  length : Nat

/-- Result of source `generateCharacterPassword`; `bits = none` models the
absent (`undefined`) `bits` field of the early `EmptyPool` return, and
`transforms = none` its empty `{}` record. -/
structure CharResult where
  password : List Char
  bits : Option ℝ
  transforms : Option CharTransforms

/-- Source `generateCharacterPassword(length, poolCfg)`: empty pool returns
`{ password: '', transforms: {} }` (no `bits` field), else `length`
independent draws from the pool and the closed-form bit count. -/
noncomputable def generateCharacterPassword (length : Nat) (poolCfg : PoolCfg)
    (tape : Tape) : CharResult :=
  let pool := buildPool poolCfg
  if pool.length = 0 then ⟨[], none, none⟩
  else
    let pwd := charDraws pool length tape
    ⟨pwd.1, some (bitsForCharacterMode length pool.length),
     some ⟨pool.length, length⟩⟩

/-- Crack-time label, the unit structure of the source's `label` strings. -/
inductive CrackLabel where
  | subSecond
  | minutes (v : ℝ)
  | hours (v : ℝ)
  | days (v : ℝ)
  | years (v : ℝ)
  | scientific (mantissa : ℝ) (exponent : ℤ)

/-- Result of `formatCrackTimeFromBits`: label plus the `seconds` field
(`none` models the scientific branch's `null`). -/
structure CrackTime where
  label : CrackLabel
  seconds : Option ℝ

/-- Source `formatCrackTimeFromBits(bits, guessesPerSec)`, with all
arithmetic over ideal reals and `Math.log10` as `Real.logb 10`. -/
noncomputable def formatCrackTimeFromBits (bits guessesPerSec : ℝ) : CrackTime :=
  if bits ≤ 0 then ⟨.subSecond, some 0⟩
  else
    let log10Guesses := bits * Real.logb 10 2
    let log10Seconds := log10Guesses - Real.logb 10 guessesPerSec
    if log10Seconds < 0 then ⟨.subSecond, some ((10 : ℝ) ^ log10Seconds)⟩
    else
      let log10Years := log10Seconds - Real.logb 10 31557600
      if log10Years < 6 then
        let years := (10 : ℝ) ^ log10Years
        if years < 60 then
          let days := (10 : ℝ) ^ log10Seconds / 86400
          if days < 1 then
            let hours := (10 : ℝ) ^ log10Seconds / 3600
            if hours < 1 then
              ⟨.minutes ((10 : ℝ) ^ log10Seconds / 60), some ((10 : ℝ) ^ log10Seconds)⟩
            else ⟨.hours hours, some ((10 : ℝ) ^ log10Seconds)⟩
          else ⟨.days days, some ((10 : ℝ) ^ log10Seconds)⟩
        else ⟨.years years, some ((10 : ℝ) ^ log10Seconds)⟩
      else
        let exponentYears := ⌊log10Years⌋
        ⟨.scientific ((10 : ℝ) ^ (log10Years - (exponentYears : ℝ))) exponentYears, none⟩

/-- Source constant `0xFFFFFFFF`, the `maxUint` of `secureRandomInt`. -/
def maxUint : Nat := 4294967295

/-- The source's rejection threshold `maxUint - (maxUint % n)`. -/
def threshold (n : Nat) : Nat := maxUint - maxUint % n

/-- The `while (true)` rejection loop of `secureRandomInt` on an explicit
raw 32-bit stream: the first raw value below the threshold is accepted and
reduced mod `n`; an exhausted stream is an error (a modelling artifact — the
source blocks for more randomness instead). -/
def rejectionLoop (n : Nat) : List Nat → Except String Nat
  | [] => Except.error "entropy stream exhausted"
  | r :: rs => if r < threshold n then Except.ok (r % n) else rejectionLoop n rs

/-- Source `secureRandomInt(maxExclusive)` on an explicit raw stream:
throws (`InvalidArgument`) for non-positive arguments, else runs the
rejection loop. -/
def secureRandomInt (maxExclusive : Int) (raws : List Nat) : Except String Nat :=
  if maxExclusive ≤ 0 then Except.error "maxExclusive must be > 0"
  else rejectionLoop maxExclusive.toNat raws

/-- The embedded fallback wordlist of `loadWordlist`, transcribed verbatim
from the source (186 entries). -/
def FALLBACK : List String :=
  ["apple", "anchor", "amber", "atlas", "axiom", "beacon", "breeze", "brisk", "cobalt", "copper",
   "crimson", "crest", "dawn", "delta", "ember", "echo", "forge", "fable", "garnet", "glade",
   "hollow", "harbor", "iris", "ivory", "jolt", "jade", "keystone", "kismet", "lumen", "lunar",
   "mosaic", "matrix", "nebula", "native", "opal", "oracle", "pinnacle", "pioneer", "quartz", "quiet",
   "rift", "ranger", "sable", "solar", "spruce", "titan", "tracer", "umbra", "union", "vapor",
   "valiant", "woven", "whistle", "xenon", "yearn", "yonder", "zephyr", "zenith", "azure", "crest",
   "marble", "canyon", "willow", "orchid", "violet", "sage", "cinder", "flint", "cobalt", "saffron",
   "harvest", "meadow", "glimmer", "fusion", "harbor", "legend", "mongoose", "poppy", "copper", "thrive",
   "riddle", "cobalt", "raven", "dune", "copper", "stride", "haven", "ember", "basil", "cascade",
   "dapper", "evolve", "frank", "grove", "haven", "ignite", "juno", "latch", "mirth", "nimbus",
   "opal", "prism", "quest", "ripple", "sable", "terra", "uplift", "verve", "wisp", "yarrow",
   "zeal", "arcade", "bravo", "caper", "drift", "elixir", "flute", "gale", "halt", "ion",
   "jewel", "knack", "lodge", "muse", "noir", "opal", "paragon", "quietus", "resin", "sprout",
   "tango", "undertow", "vivid", "wax", "yacht", "zest", "bloom", "citrine", "dock", "ember",
   "flare", "grotto", "harbor", "isle", "jolt", "kale", "lagoon", "mantle", "niche", "oath",
   "pixel", "quill", "rover", "solace", "thimble", "umbel", "vigil", "waltz", "xerox", "yodel",
   "zeppelin", "apex", "brook", "crest", "delta", "eon", "forge", "glisten", "hush", "iris",
   "jade", "koi", "lore", "maze", "nest", "olive", "peak", "quip", "rush", "sprig",
   "thaw", "ultra", "vortex", "wane", "yearn", "zen"]

/-- Source `loadWordlist`, as a function of the fetch outcome: `none` is any
retrieval failure or a non-array payload; a fetched array is accepted only
when it has at least 10 entries, else the fallback is used. -/
def loadWordlist (fetched : Option (List String)) : List String :=
  match fetched with
  | some arr => if 10 ≤ arr.length then arr else FALLBACK
  | none => FALLBACK

/-- The true bit cost of a draw log: the sum of `log2(cardinality)` over
every recorded random choice. -/
noncomputable def consumedBits (l : List Nat) : ℝ :=
  (l.map (fun n : Nat => Real.logb 2 (n : ℝ))).sum

/-- Shape of the value-choice part of the `insertExtras` draw log: one block
per insertion, `[2, 27]` or `[2, 10]` when both classes are enabled (coin
then in-class draw), else a single in-class draw. -/
def ValueBlocks (opts : InsertOpts) : Nat → List Nat → Prop
  | 0, l => l = []
  | Nat.succ k, l => ∃ b l2, l = b ++ l2 ∧
      (if opts.symbols && opts.digits then b = [2, 27] ∨ b = [2, 10]
       else if opts.symbols then b = [27] else b = [10]) ∧
      ValueBlocks opts k l2

/-- A 10-entry wordlist (a payload the source's validation accepts), used
for the concrete counterexample runs. -/
def sampleWordlist : List String :=
  ["apple", "anchor", "amber", "atlas", "axiom", "beacon", "breeze", "brisk",
   "cobalt", "copper"]

/-- Concrete passphrase options for the C1 counterexample: two words, no
separator, no personal hint, only the insert-extras transform enabled. -/
def cexOpts : PassOpts := ⟨2, "", "", false, false, true⟩

/-- Concrete tape for the C1 counterexample: word draws 0 and 1, insertion
count draw 0, coin 1 (symbol), symbol index 0, position 0. -/
def cexTape : Tape := [0, 1, 0, 1, 0, 0]

/-! ## Helper lemmas -/

theorem secureRandomIntT_fst_lt (n : Nat) (hn : 0 < n) (tape : Tape) :
    (secureRandomIntT n tape).1 < n := by
  cases tape with
  | nil => exact hn
  | cons t ts => exact Nat.mod_lt t hn

theorem secureRandomIntT_log (n : Nat) (tape : Tape) :
    (secureRandomIntT n tape).2.2 = [n] := by
  cases tape <;> rfl

theorem getD_mem_of_lt {α : Type} (l : List α) (i : Nat) (d : α)
    (h : i < l.length) : l.getD i d ∈ l := by
  induction l generalizing i with
  | nil => simp at h
  | cons a l ih =>
    cases i with
    | zero => exact List.mem_cons_self a l
    | succ j => exact List.mem_cons_of_mem a (ih j (by simpa using h))

theorem rejectionLoop_ok_lt (n : Nat) (hn : 0 < n) :
    ∀ (raws : List Nat) (r : Nat), rejectionLoop n raws = Except.ok r → r < n := by
  intro raws
  induction raws with
  | nil => intro r h; simp [rejectionLoop] at h
  | cons raw rs ih =>
    intro r h
    by_cases hacc : raw < threshold n
    · rw [rejectionLoop, if_pos hacc] at h
      cases h
      exact Nat.mod_lt raw hn
    · rw [rejectionLoop, if_neg hacc] at h
      exact ih r h

theorem threshold_eq_mul (n : Nat) (hn : 0 < n) :
    threshold n = n * (maxUint / n) := by
  have h := Nat.div_add_mod maxUint n
  unfold threshold
  omega

theorem card_mod_filter (n m k : Nat) (hn : 0 < n) (hk : k < n) :
    ((Finset.range (n * m)).filter (fun r => r % n = k)).card = m := by
  have h : ((Finset.range (n * m)).filter (fun r => r % n = k)).card
      = (Finset.range m).card := by
    apply Finset.card_bij' (fun r _ => r / n) (fun j _ => n * j + k)
    · intro r hr
      rw [Finset.mem_filter, Finset.mem_range] at hr
      rw [Finset.mem_range]
      exact (Nat.div_lt_iff_lt_mul hn).mpr (by rw [mul_comm]; exact hr.1)
    · intro j hj
      rw [Finset.mem_range] at hj
      rw [Finset.mem_filter, Finset.mem_range]
      constructor
      · calc n * j + k < n * j + n := by omega
          _ = n * (j + 1) := by ring
          _ ≤ n * m := Nat.mul_le_mul_left n (by omega)
      · rw [Nat.mul_add_mod]
        exact Nat.mod_eq_of_lt hk
    · intro r hr
      rw [Finset.mem_filter] at hr
      rw [← hr.2]
      exact Nat.div_add_mod r n
    · intro j _
      rw [Nat.mul_add_div hn, Nat.div_eq_of_lt hk, Nat.add_zero]
  rw [h, Finset.card_range]
/-! ## Claim theorems -/

/-- C3: `secureRandomInt` fails with the invalid-argument error for every
`maxExclusive ≤ 0`; for `maxExclusive ≥ 1` any returned value lies in
`[0, maxExclusive)`; a raw 32-bit value below the threshold
`maxUint - maxUint % n` is accepted and reduced mod `n` while any raw value
at or above the threshold is discarded and the loop redraws; and among the
accepted raw values every result `k < n` has exactly `threshold n / n`
preimages, so no result is biased. -/
theorem secureRandomInt_spec :
    (∀ maxExclusive : Int, maxExclusive ≤ 0 → ∀ raws,
        secureRandomInt maxExclusive raws
          = Except.error "maxExclusive must be > 0")
    ∧ (∀ maxExclusive : Int, 1 ≤ maxExclusive → ∀ raws r,
        secureRandomInt maxExclusive raws = Except.ok r →
          (r : Int) < maxExclusive)
    ∧ (∀ n : Nat, ∀ raw raws, raw < threshold n →
        rejectionLoop n (raw :: raws) = Except.ok (raw % n))
    ∧ (∀ n : Nat, ∀ raw raws, threshold n ≤ raw →
        rejectionLoop n (raw :: raws) = rejectionLoop n raws)
    ∧ (∀ n : Nat, 1 ≤ n → ∀ k : Nat, k < n →
        ((Finset.range (threshold n)).filter (fun r => r % n = k)).card
          = threshold n / n) := by
  refine ⟨?_, ?_, ?_, ?_, ?_⟩
  · intro m hm raws
    rw [secureRandomInt, if_pos hm]
  · intro m hm raws r h
    rw [secureRandomInt, if_neg (by omega)] at h
    have hn : 0 < m.toNat := by omega
    have := rejectionLoop_ok_lt m.toNat hn raws r h
    omega
  · intro n raw raws hacc
    rw [rejectionLoop, if_pos hacc]
  · intro n raw raws hrej
    rw [rejectionLoop, if_neg (by omega)]
  · intro n hn k hk
    rw [threshold_eq_mul n hn, card_mod_filter n _ k hn hk,
      Nat.mul_div_cancel_left _ hn]

/-- C3 witness: concrete instances of the invalid-argument case, the
accept/reject behaviour, and the unbiased preimage count. -/
theorem secureRandomInt_spec_witness :
    secureRandomInt (-1) [0] = Except.error "maxExclusive must be > 0"
    ∧ rejectionLoop 5 [7, 3] = Except.ok 2
    ∧ ((Finset.range (threshold 3)).filter (fun r => r % 3 = 1)).card
        = threshold 3 / 3 :=
  ⟨secureRandomInt_spec.1 (-1) (by decide) [0],
   by
    have h := secureRandomInt_spec.2.2.1 5 7 [3]
      (by unfold threshold maxUint; decide)
    simpa using h,
   secureRandomInt_spec.2.2.2.2 3 (by decide) 1 (by decide)⟩

/-- C8: with no pool subset enabled, `generateCharacterPassword` does not
throw and returns an empty password — but its result carries no bit count
at all (the source's early return omits the `bits` field, modelled as
`none`), rather than reporting zero bits as the spec requires. -/
theorem generateCharacterPassword_empty_pool (length : Nat) (tape : Tape) :
    (generateCharacterPassword length ⟨false, false, false, false⟩ tape).password = []
    ∧ (generateCharacterPassword length ⟨false, false, false, false⟩ tape).bits = none
    ∧ (generateCharacterPassword length ⟨false, false, false, false⟩ tape).bits
        ≠ some 0 := by
  refine ⟨rfl, rfl, ?_⟩
  intro h
  exact Option.noConfusion h

set_option maxRecDepth 40000 in
/-- C9 counterexample: the embedded fallback list has 186 entries, not 200,
and it is not a list of distinct words — "crest" occurs three times. -/
theorem fallback_wordlist_cex :
    FALLBACK.length = 186
    ∧ FALLBACK.count "crest" = 3
    ∧ ¬ FALLBACK.Nodup := by
  refine ⟨rfl, by decide, fun h => ?_⟩
  have h1 := List.nodup_iff_count_le_one.mp h "crest"
  have h2 : FALLBACK.count "crest" = 3 := by decide
  omega

set_option maxRecDepth 40000 in
/-- C9 (amended): any retrieval failure or any fetched array with fewer
than 10 entries makes `loadWordlist` fall back to the embedded list; that
fallback is a fixed list of exactly 186 lowercase words (not all distinct),
so the wordlist in use always has at least 10 entries. -/
theorem loadWordlist_fallback_spec :
    (∀ arr : List String, arr.length < 10 → loadWordlist (some arr) = FALLBACK)
    ∧ loadWordlist none = FALLBACK
    ∧ FALLBACK.length = 186
    ∧ (∀ w ∈ FALLBACK, ∀ c ∈ w.data, c.isLower)
    ∧ 10 ≤ FALLBACK.length := by
  refine ⟨?_, rfl, rfl, ?_, by decide⟩
  · intro arr h
    rw [loadWordlist, if_neg (by omega)]
  · intro w hw c hc
    revert hc
    revert c
    revert hw
    revert w
    decide

/-- C9 witness: an under-sized fetched array falls back to the embedded
list, and the embedded list has at least 10 entries. -/
theorem loadWordlist_fallback_spec_witness :
    loadWordlist (some ["a", "b"]) = FALLBACK ∧ 10 ≤ FALLBACK.length :=
  ⟨loadWordlist_fallback_spec.1 ["a", "b"] (by decide),
   loadWordlist_fallback_spec.2.2.2.2⟩

theorem splice_length (arr : List Char) (v : Char) (p : Nat) :
    (arr.take p ++ v :: arr.drop p).length = arr.length + 1 := by
  simp only [List.length_append, List.length_cons, List.length_take,
    List.length_drop]
  omega

theorem randomizeCapitalization_shape (text : List Char) (tape : Tape) :
    (randomizeCapitalization text tape).text.length = text.length
    ∧ List.Forall₂ (fun a b => isAsciiAlpha a = false → b = a) text
        (randomizeCapitalization text tape).text := by
  induction text generalizing tape with
  | nil => exact ⟨rfl, List.Forall₂.nil⟩
  | cons c cs ih =>
    by_cases hc : isAsciiAlpha c
    · rw [randomizeCapitalization, if_pos hc]
      refine ⟨by simpa using (ih _).1, List.Forall₂.cons ?_ (ih _).2⟩
      intro hfalse
      rw [hc] at hfalse
      exact Bool.noConfusion hfalse
    · rw [randomizeCapitalization, if_neg hc]
      exact ⟨by simpa using (ih _).1, List.Forall₂.cons (fun _ => rfl) (ih _).2⟩

theorem applyLeet_shape (text : List Char) (tape : Tape) :
    (applyLeet text tape).text.length = text.length
    ∧ List.Forall₂ (fun a b => LEET_MAP a.toLower = none → b = a) text
        (applyLeet text tape).text := by
  induction text generalizing tape with
  | nil => exact ⟨rfl, List.Forall₂.nil⟩
  | cons c cs ih =>
    rcases hm : LEET_MAP c.toLower with _ | alts
    · rw [applyLeet]
      rw [hm]
      exact ⟨by simpa using (ih _).1, List.Forall₂.cons (fun _ => rfl) (ih _).2⟩
    · rw [applyLeet]
      rw [hm]
      refine ⟨by simpa using (ih _).1, List.Forall₂.cons ?_ (ih _).2⟩
      intro hnone
      rw [hm] at hnone
      exact Option.noConfusion hnone

theorem pickInsertValues_length (opts : InsertOpts) :
    ∀ (k : Nat) (tape : Tape), (pickInsertValues opts k tape).1.length = k := by
  intro k
  induction k with
  | zero => intro tape; rfl
  | succ k ih => intro tape; simpa [pickInsertValues] using ih _

theorem insertAtPositions_length :
    ∀ (vs arr : List Char) (tape : Tape),
      (insertAtPositions arr vs tape).1.length = arr.length + vs.length := by
  intro vs
  induction vs with
  | nil => intro arr tape; simp [insertAtPositions]
  | cons v vs ih =>
    intro arr tape
    rw [insertAtPositions]
    have h := ih (arr.take (secureRandomIntT (arr.length + 1) tape).1 ++
      v :: arr.drop (secureRandomIntT (arr.length + 1) tape).1)
      (secureRandomIntT (arr.length + 1) tape).2.1
    rw [splice_length] at h
    simp only [h, List.length_cons]
    omega

theorem insertAtPositions_log :
    ∀ (vs arr : List Char) (tape : Tape),
      (insertAtPositions arr vs tape).2.2
        = (List.range vs.length).map (fun i => arr.length + i + 1) := by
  intro vs
  induction vs with
  | nil => intro arr tape; simp [insertAtPositions]
  | cons v vs ih =>
    intro arr tape
    rw [insertAtPositions]
    have h := ih (arr.take (secureRandomIntT (arr.length + 1) tape).1 ++
      v :: arr.drop (secureRandomIntT (arr.length + 1) tape).1)
      (secureRandomIntT (arr.length + 1) tape).2.1
    rw [splice_length] at h
    simp only [secureRandomIntT_log, h, List.length_cons,
      List.range_succ_eq_map, List.map_cons, List.map_map]
    rw [List.singleton_append]
    congr 1
    apply List.map_congr_left
    intro i _
    simp only [Function.comp_apply]
    omega

theorem pickInsertValue_log (opts : InsertOpts) (tape : Tape) :
    (if opts.symbols && opts.digits then
        (pickInsertValue opts tape).2.2 = [2, 27]
        ∨ (pickInsertValue opts tape).2.2 = [2, 10]
      else if opts.symbols then (pickInsertValue opts tape).2.2 = [27]
      else (pickInsertValue opts tape).2.2 = [10]) := by
  rcases opts with ⟨d, s⟩
  cases d <;> cases s
  · simp [pickInsertValue, secureChoiceT, secureRandomIntT_log, SYMBOLS]
  · simp [pickInsertValue, secureChoiceT, secureRandomIntT_log, SYMBOLS]
  · simp [pickInsertValue, secureChoiceT, secureRandomIntT_log, SYMBOLS]
  · by_cases hc : (secureRandomIntT 2 tape).1 = 1
    · simp [pickInsertValue, secureChoiceT, secureRandomIntT_log, hc, SYMBOLS]
    · simp [pickInsertValue, secureChoiceT, secureRandomIntT_log, hc, SYMBOLS]

theorem pickInsertValues_log (opts : InsertOpts) :
    ∀ (k : Nat) (tape : Tape),
      ValueBlocks opts k (pickInsertValues opts k tape).2.2 := by
  intro k
  induction k with
  | zero => intro tape; rfl
  | succ k ih =>
    intro tape
    refine ⟨(pickInsertValue opts tape).2.2,
      (pickInsertValues opts k (pickInsertValue opts tape).2.1).2.2,
      rfl, ?_, ih _⟩
    exact pickInsertValue_log opts tape

/-- C5: running `insertExtras` on a string of length `baseLen` records that
`baseLen`; the recorded `choiceSize` is 37, 27 or 10 according to the
enabled classes; the insertion count is `1 + uniformIndex(maxInsert)` with
`maxInsert = min(4, max(1, ceil(baseLen / 6)))`, hence lies in
`[1, maxInsert]`; and the draw log is exactly the count draw of cardinality
`maxInsert`, followed by one value block per insertion (a fair coin of
cardinality 2 plus an in-class draw of cardinality 27 or 10 when both
classes are enabled, else a single in-class draw), followed by the `i`-th
position draw of cardinality `baseLen + i + 1`. -/
theorem insertExtras_spec (text : List Char) (opts : InsertOpts) (tape : Tape) :
    (insertExtras text opts tape).baseLen = text.length
    ∧ (insertExtras text opts tape).choiceSize
        = (if opts.symbols && opts.digits then 37
           else if opts.symbols then 27 else 10)
    ∧ (insertExtras text opts tape).count
        = 1 + (secureRandomIntT (min 4 (max 1 ((text.length + 5) / 6))) tape).1
    ∧ 1 ≤ (insertExtras text opts tape).count
    ∧ (insertExtras text opts tape).count ≤ min 4 (max 1 ((text.length + 5) / 6))
    ∧ (∃ vlog, ValueBlocks opts ((insertExtras text opts tape).count) vlog
        ∧ (insertExtras text opts tape).log
            = min 4 (max 1 ((text.length + 5) / 6)) :: vlog
              ++ (List.range ((insertExtras text opts tape).count)).map
                  (fun i => text.length + i + 1)) := by
  have hM : 0 < min 4 (max 1 ((text.length + 5) / 6)) := by omega
  have hcount : (insertExtras text opts tape).count
      = 1 + (secureRandomIntT (min 4 (max 1 ((text.length + 5) / 6))) tape).1 := by
    simp only [insertExtras]
    rw [pickInsertValues_length]
  refine ⟨rfl, ?_, hcount, ?_, ?_, ?_⟩
  · rcases opts with ⟨d, s⟩
    cases d <;> cases s <;> rfl
  · omega
  · rw [hcount]
    have := secureRandomIntT_fst_lt _ hM tape
    omega
  · refine ⟨(pickInsertValues opts
      (1 + (secureRandomIntT (min 4 (max 1 ((text.length + 5) / 6))) tape).1)
      (secureRandomIntT (min 4 (max 1 ((text.length + 5) / 6))) tape).2.1).2.2,
      ?_, ?_⟩
    · rw [hcount]
      exact pickInsertValues_log opts _ _
    · simp only [insertExtras, secureRandomIntT_log, insertAtPositions_log,
        pickInsertValues_length, hcount]
      rfl

/-- C5 witness: a concrete run on an 11-character string with both classes
enabled. -/
theorem insertExtras_spec_witness :
    (insertExtras
        ['a', 'p', 'p', 'l', 'e', 'a', 'n', 'c', 'h', 'o', 'r']
        ⟨true, true⟩ [0, 1, 0, 0]).baseLen = 11
    ∧ 1 ≤ (insertExtras
        ['a', 'p', 'p', 'l', 'e', 'a', 'n', 'c', 'h', 'o', 'r']
        ⟨true, true⟩ [0, 1, 0, 0]).count :=
  ⟨(insertExtras_spec _ _ _).1,
   (insertExtras_spec
      ['a', 'p', 'p', 'l', 'e', 'a', 'n', 'c', 'h', 'o', 'r']
      ⟨true, true⟩ [0, 1, 0, 0]).2.2.2.1⟩

/-- C10: the capitalization stage and the leet stage are length-preserving
and leave non-alphabetic (resp. non-leet-table) characters unchanged at
their positions; the insertion stage returns a string of length exactly
`baseLen + count` where `count` is the recorded insertion count, and
`1 ≤ count ≤ 4`. -/
theorem transform_stage_shape :
    (∀ (text : List Char) (tape : Tape),
        (randomizeCapitalization text tape).text.length = text.length
        ∧ List.Forall₂ (fun a b => isAsciiAlpha a = false → b = a) text
            (randomizeCapitalization text tape).text)
    ∧ (∀ (text : List Char) (tape : Tape),
        (applyLeet text tape).text.length = text.length
        ∧ List.Forall₂ (fun a b => LEET_MAP a.toLower = none → b = a) text
            (applyLeet text tape).text)
    ∧ (∀ (text : List Char) (opts : InsertOpts) (tape : Tape),
        (insertExtras text opts tape).text.length
          = (insertExtras text opts tape).baseLen
            + (insertExtras text opts tape).count
        ∧ 1 ≤ (insertExtras text opts tape).count
        ∧ (insertExtras text opts tape).count ≤ 4) := by
  refine ⟨randomizeCapitalization_shape, applyLeet_shape, ?_⟩
  intro text opts tape
  have hM : 0 < min 4 (max 1 ((text.length + 5) / 6)) := by omega
  have hlt := secureRandomIntT_fst_lt _ hM tape
  constructor
  · simp only [insertExtras, insertAtPositions_length, pickInsertValues_length]
  · constructor
    · simp only [insertExtras]
      rw [pickInsertValues_length]
      omega
    · simp only [insertExtras]
      rw [pickInsertValues_length]
      omega

/-- C10 witness: a concrete instance of each stage shape fact. -/
theorem transform_stage_shape_witness :
    (randomizeCapitalization ['a', '-', 'b'] [1, 0]).text.length = 3
    ∧ (applyLeet ['a', 'x'] [0]).text.length = 2
    ∧ 1 ≤ (insertExtras ['a', 'b'] ⟨true, true⟩ [0, 0, 0]).count :=
  ⟨(transform_stage_shape.1 ['a', '-', 'b'] [1, 0]).1,
   (transform_stage_shape.2.1 ['a', 'x'] [0]).1,
   (transform_stage_shape.2.2 ['a', 'b'] ⟨true, true⟩ [0, 0, 0]).2.1⟩

theorem chooseWords_log (wl : List String) (personal : String)
    (h : ¬ 1 < personal.length) :
    ∀ (k : Nat) (tape : Tape),
      (chooseWords wl personal k tape).2.2 = List.replicate k wl.length := by
  intro k
  induction k with
  | zero => intro tape; rfl
  | succ k ih =>
    intro tape
    rw [chooseWords, if_neg h]
    simp [secureRandomIntT_log, ih, List.replicate_succ]

theorem randomizeCapitalization_log (text : List Char) (tape : Tape) :
    (randomizeCapitalization text tape).log
      = List.replicate (randomizeCapitalization text tape).lettersCount 2 := by
  induction text generalizing tape with
  | nil => rfl
  | cons c cs ih =>
    by_cases hc : isAsciiAlpha c
    · rw [randomizeCapitalization, if_pos hc]
      simp [secureRandomIntT_log, ih, List.replicate_succ]
    · rw [randomizeCapitalization, if_neg hc]
      exact ih _

theorem applyLeet_log (text : List Char) (tape : Tape) :
    (applyLeet text tape).log = (applyLeet text tape).choices := by
  induction text generalizing tape with
  | nil => rfl
  | cons c cs ih =>
    rcases hm : LEET_MAP c.toLower with _ | alts
    · rw [applyLeet]
      rw [hm]
      exact ih _
    · rw [applyLeet]
      rw [hm]
      simp [secureChoiceT, secureRandomIntT_log, ih]

theorem consumedBits_append (l1 l2 : List Nat) :
    consumedBits (l1 ++ l2) = consumedBits l1 + consumedBits l2 := by
  simp [consumedBits]

theorem consumedBits_replicate (k n : Nat) :
    consumedBits (List.replicate k n) = (k : ℝ) * Real.logb 2 (n : ℝ) := by
  induction k with
  | zero => simp [consumedBits]
  | succ k ih =>
    rw [List.replicate_succ]
    have hcons : consumedBits (n :: List.replicate k n)
        = Real.logb 2 (n : ℝ) + consumedBits (List.replicate k n) := by
      simp [consumedBits]
    rw [hcons, ih]
    push_cast
    ring

theorem consumedBits_eq_logb_prod (l : List Nat) (h : ∀ n ∈ l, n ≠ 0) :
    consumedBits l = Real.logb 2 ((l.prod : ℕ) : ℝ) := by
  induction l with
  | nil => simp [consumedBits]
  | cons a l ih =>
    have ha : ((a : ℕ) : ℝ) ≠ 0 :=
      Nat.cast_ne_zero.mpr (h a (List.mem_cons_self a l))
    have hl : ((l.prod : ℕ) : ℝ) ≠ 0 := by
      rw [Nat.cast_ne_zero]
      exact List.prod_ne_zero (fun h0 => (h 0 (List.mem_cons_of_mem a h0)) rfl)
    have hcons : consumedBits (a :: l)
        = Real.logb 2 (a : ℝ) + consumedBits l := by
      simp [consumedBits]
    rw [hcons, ih (fun n hn => h n (List.mem_cons_of_mem a hn)), List.prod_cons,
      Nat.cast_mul, Real.logb_mul ha hl]

theorem bitsForPassphraseModel_no_insert (numWords W : Nat) (t : Transforms)
    (hins : t.insertions = none) :
    bitsForPassphraseModel numWords W t
      = (numWords : ℝ) * Real.logb 2 (W : ℝ)
        + (if t.capitalisation then (t.lettersCount : ℝ) else 0)
        + (if t.leet
           then ((t.leetChoices.map (fun c : Nat => Real.logb 2 (c : ℝ))).sum)
           else 0) := by
  rcases t with ⟨c, L, le, ch, ins, len⟩
  simp only at hins
  subst hins
  cases c
  · cases le
    · simp [bitsForPassphraseModel]
    · by_cases hch : ch = []
      · subst hch
        simp [bitsForPassphraseModel]
      · simp [bitsForPassphraseModel, hch]
  · cases le
    · by_cases hL : L = 0
      · subst hL
        simp [bitsForPassphraseModel]
      · simp [bitsForPassphraseModel, hL]
    · by_cases hL : L = 0 <;> by_cases hch : ch = [] <;>
        simp [bitsForPassphraseModel, hL, hch]

/-- C2: with all three transforms disabled the reported passphrase bit
count equals `numWords × log2(W)`, and with only capitalization enabled it
equals `numWords × log2(W)` plus exactly the recorded `lettersCount`. -/
theorem generatePassphrase_bits_base_cap :
    (∀ (wl : List String) (opts : PassOpts) (tape : Tape),
        opts.enableCap = false → opts.enableLeet = false →
        opts.enableInsertExtras = false →
        (generatePassphrase wl opts tape).bits
          = (opts.numWords : ℝ) * Real.logb 2 (wl.length : ℝ))
    ∧ (∀ (wl : List String) (opts : PassOpts) (tape : Tape),
        opts.enableCap = true → opts.enableLeet = false →
        opts.enableInsertExtras = false →
        (generatePassphrase wl opts tape).bits
          = (opts.numWords : ℝ) * Real.logb 2 (wl.length : ℝ)
            + ((generatePassphrase wl opts tape).transforms.lettersCount : ℝ)) := by
  constructor
  · intro wl opts tape hc hl hi
    have hbits : (generatePassphrase wl opts tape).bits
        = bitsForPassphraseModel opts.numWords wl.length
            (generatePassphraseCore wl opts tape).transforms := rfl
    rw [hbits, bitsForPassphraseModel_no_insert _ _ _
      (by simp [generatePassphraseCore, hi])]
    simp [generatePassphraseCore, hc, hl]
  · intro wl opts tape hc hl hi
    have hbits : (generatePassphrase wl opts tape).bits
        = bitsForPassphraseModel opts.numWords wl.length
            (generatePassphraseCore wl opts tape).transforms := rfl
    rw [hbits, bitsForPassphraseModel_no_insert _ _ _
      (by simp [generatePassphraseCore, hi])]
    have hcap : (generatePassphraseCore wl opts tape).transforms.capitalisation
        = true := by
      simp [generatePassphraseCore, hc]
    have hleet : (generatePassphraseCore wl opts tape).transforms.leet = false := by
      simp [generatePassphraseCore, hl]
    rw [hcap, hleet]
    have hrfl : (generatePassphrase wl opts tape).transforms
        = (generatePassphraseCore wl opts tape).transforms := rfl
    rw [hrfl]
    simp

/-- C2 witness: a concrete 3-word generation over a 10-word list with no
transforms, and a concrete capitalization-enabled generation. -/
theorem generatePassphrase_bits_base_cap_witness :
    (generatePassphrase sampleWordlist ⟨3, "-", "", false, false, false⟩
        [0, 1, 2]).bits
      = 3 * Real.logb 2 10
    ∧ (generatePassphrase sampleWordlist ⟨2, "-", "", true, false, false⟩
        (List.replicate 20 0)).bits
      = 2 * Real.logb 2 10
        + ((generatePassphrase sampleWordlist ⟨2, "-", "", true, false, false⟩
            (List.replicate 20 0)).transforms.lettersCount : ℝ) := by
  constructor
  · have h := generatePassphrase_bits_base_cap.1 sampleWordlist
      ⟨3, "-", "", false, false, false⟩ [0, 1, 2] rfl rfl rfl
    have hlen : (sampleWordlist.length : ℝ) = 10 := by
      norm_num [sampleWordlist]
    rw [h, hlen]
    norm_num
  · have h := generatePassphrase_bits_base_cap.2 sampleWordlist
      ⟨2, "-", "", true, false, false⟩ (List.replicate 20 0) rfl rfl rfl
    have hlen : (sampleWordlist.length : ℝ) = 10 := by
      norm_num [sampleWordlist]
    rw [h, hlen]
    norm_num

/-- C1 counterexample: a concrete insert-extras generation whose reported
bit count differs from the sum of `log2(alternatives)` over the random
choices actually made — the model charges `log2 37` per inserted value and
`log2 C(12, 1)` for positions and nothing for the count draw, while the run
actually consumed a coin plus a 27-way draw and an ordered position draw. -/
theorem generatePassphrase_bits_cex :
    (generatePassphrase sampleWordlist cexOpts cexTape).bits
      ≠ consumedBits (generatePassphraseCore sampleWordlist cexOpts cexTape).log := by
  have hlog : (generatePassphraseCore sampleWordlist cexOpts cexTape).log
      = [10, 10, 2, 2, 27, 12] := by rfl
  have ht : (generatePassphraseCore sampleWordlist cexOpts cexTape).transforms
      = ⟨false, 0, false, [], some ⟨1, 37⟩, 11⟩ := by rfl
  have hbits : (generatePassphrase sampleWordlist cexOpts cexTape).bits
      = bitsForPassphraseModel 2 10
          (⟨false, 0, false, [], some ⟨1, 37⟩, 11⟩ : Transforms) := rfl
  have h12 : (log2_nCr 12 1).toReal = Real.logb 2 12 := by
    rw [log2_nCr, if_neg (by norm_num)]
    rw [EReal.toReal_coe]
    unfold log2_nCrSum
    norm_num [Finset.sum_range_one]
  have hmodel : bitsForPassphraseModel 2 10
      (⟨false, 0, false, [], some ⟨1, 37⟩, 11⟩ : Transforms)
      = Real.logb 2 44400 := by
    simp only [bitsForPassphraseModel]
    norm_num [h12]
    rw [show (44400 : ℝ) = 10 * 10 * 37 * 12 by norm_num,
      Real.logb_mul (by norm_num) (by norm_num),
      Real.logb_mul (by norm_num) (by norm_num),
      Real.logb_mul (by norm_num) (by norm_num)]
    ring
  have hcons : consumedBits [10, 10, 2, 2, 27, 12] = Real.logb 2 129600 := by
    rw [consumedBits_eq_logb_prod _ (by decide)]
    norm_num
  rw [hbits, hmodel, hlog, hcons]
  exact ne_of_lt (Real.logb_lt_logb (by norm_num) (by norm_num) (by norm_num))

/-- C1 (amended): when no personal hint is in effect and the insert-extras
transform is disabled, the reported bit count equals exactly the sum of
`log2(alternatives)` over every random choice actually made (word draws,
capitalization coins, leet draws), with no omission or double-counting;
with a personal hint or with insertions the source's accounting is the
spec's documented approximation and the equality fails. -/
theorem generatePassphrase_bits_eq_consumed (wl : List String) (opts : PassOpts)
    (tape : Tape) (hper : opts.personal.length ≤ 1)
    (hins : opts.enableInsertExtras = false) :
    (generatePassphrase wl opts tape).bits
      = consumedBits (generatePassphraseCore wl opts tape).log := by
  have hnp : ¬ 1 < opts.personal.length := by omega
  have hbits : (generatePassphrase wl opts tape).bits
      = bitsForPassphraseModel opts.numWords wl.length
          (generatePassphraseCore wl opts tape).transforms := rfl
  rw [hbits, bitsForPassphraseModel_no_insert _ _ _
    (by simp [generatePassphraseCore, hins])]
  have hlog2 : Real.logb 2 (2 : ℝ) = 1 :=
    Real.logb_self_eq_one (by norm_num)
  have hdl : ∀ l : List Nat,
      consumedBits l = (l.map (fun c : Nat => Real.logb 2 (c : ℝ))).sum :=
    fun _ => rfl
  cases hc : opts.enableCap <;> cases hl : opts.enableLeet <;>
    simp [generatePassphraseCore, hc, hl, hins,
      chooseWords_log wl opts.personal hnp, consumedBits_append,
      consumedBits_replicate, randomizeCapitalization_log, applyLeet_log,
      hdl, hlog2]
  ring

/-- C1 witness: a concrete hint-free, insertion-free generation with
capitalization and leet enabled whose reported bits equal the consumed
bits. -/
theorem generatePassphrase_bits_eq_consumed_witness :
    (generatePassphrase sampleWordlist ⟨2, "-", "", true, true, false⟩
        (List.replicate 30 0)).bits
      = consumedBits (generatePassphraseCore sampleWordlist
          ⟨2, "-", "", true, true, false⟩ (List.replicate 30 0)).log :=
  generatePassphrase_bits_eq_consumed sampleWordlist
    ⟨2, "-", "", true, true, false⟩ (List.replicate 30 0) (by decide) rfl

theorem buildPool_length (cfg : PoolCfg) :
    (buildPool cfg).length
      = (if cfg.lower then 26 else 0) + (if cfg.upper then 26 else 0)
        + (if cfg.digits then 10 else 0) + (if cfg.symbols then 27 else 0) := by
  rcases cfg with ⟨l, u, d, s⟩
  cases l <;> cases u <;> cases d <;> cases s <;> rfl

theorem charDraws_length (pool : List Char) :
    ∀ (k : Nat) (tape : Tape), (charDraws pool k tape).1.length = k := by
  intro k
  induction k with
  | zero => intro tape; rfl
  | succ k ih => intro tape; simpa [charDraws] using ih _

theorem charDraws_mem (pool : List Char) (hp : 0 < pool.length) :
    ∀ (k : Nat) (tape : Tape) (c : Char),
      c ∈ (charDraws pool k tape).1 → c ∈ pool := by
  intro k
  induction k with
  | zero => intro tape c hc; simp [charDraws] at hc
  | succ k ih =>
    intro tape c hc
    rw [charDraws] at hc
    rcases List.mem_cons.mp hc with h | h
    · rw [h]
      exact getD_mem_of_lt pool _ ' ' (secureRandomIntT_fst_lt _ hp tape)
    · exact ih _ _ h

/-- C4: with at least one pool subset enabled, character-mode generation
returns exactly `length` characters, each a member of the alphabet built by
concatenating the enabled subsets (26 lowercase, 26 uppercase, 10 digits,
27 symbols), and its reported entropy is `length × log2(poolSize)`. -/
theorem generateCharacterPassword_spec (length : Nat) (cfg : PoolCfg)
    (tape : Tape)
    (henv : (cfg.lower || cfg.upper || cfg.digits || cfg.symbols) = true) :
    (generateCharacterPassword length cfg tape).password.length = length
    ∧ (∀ c ∈ (generateCharacterPassword length cfg tape).password,
        c ∈ buildPool cfg)
    ∧ (generateCharacterPassword length cfg tape).bits
        = some ((length : ℝ) * Real.logb 2 ((buildPool cfg).length : ℝ))
    ∧ (buildPool cfg).length
        = (if cfg.lower then 26 else 0) + (if cfg.upper then 26 else 0)
          + (if cfg.digits then 10 else 0) + (if cfg.symbols then 27 else 0) := by
  have hpos : 0 < (buildPool cfg).length := by
    rw [buildPool_length]
    rcases cfg with ⟨l, u, d, s⟩
    cases l <;> cases u <;> cases d <;> cases s <;> simp_all
  have hne : ¬ (buildPool cfg).length = 0 := by omega
  refine ⟨?_, ?_, ?_, buildPool_length cfg⟩
  · rw [generateCharacterPassword, if_neg hne]
    exact charDraws_length _ _ _
  · rw [generateCharacterPassword, if_neg hne]
    exact fun c hc => charDraws_mem _ hpos _ _ c hc
  · rw [generateCharacterPassword, if_neg hne]
    simp only [bitsForCharacterMode, if_neg hne]

/-- C4 witness: `length = 16` with lower + digits enabled gives a
16-character password and `16 × log2(36)` bits. -/
theorem generateCharacterPassword_spec_witness :
    (generateCharacterPassword 16 ⟨true, false, true, false⟩
        (List.replicate 16 0)).password.length = 16
    ∧ (generateCharacterPassword 16 ⟨true, false, true, false⟩
        (List.replicate 16 0)).bits
      = some ((16 : ℝ) * Real.logb 2 (36 : ℝ)) := by
  have h := generateCharacterPassword_spec 16 ⟨true, false, true, false⟩
    (List.replicate 16 0) rfl
  refine ⟨h.1, ?_⟩
  have hb := h.2.2.1
  have hlen : ((buildPool ⟨true, false, true, false⟩).length : ℝ) = 36 := by
    norm_num [buildPool_length]
  rw [hb, hlen]
  norm_num

theorem prod_ratio_eq_choose (m : Nat) :
    ∀ k : Nat,
      (Finset.range k).sum
          (fun i => Real.logb 2 (((m + i + 1 : ℕ) : ℝ) / ((i + 1 : ℕ) : ℝ)))
        = Real.logb 2 (((m + k).choose k : ℕ) : ℝ) := by
  intro k
  induction k with
  | zero => simp
  | succ k ih =>
    rw [Finset.sum_range_succ, ih]
    have hC : (0 : ℝ) < (((m + k).choose k : ℕ) : ℝ) := by
      exact_mod_cast Nat.choose_pos (Nat.le_add_left k m)
    have hb : (0 : ℝ) < ((k + 1 : ℕ) : ℝ) := by positivity
    have hfrac : (0 : ℝ) < ((m + k + 1 : ℕ) : ℝ) / ((k + 1 : ℕ) : ℝ) := by
      positivity
    rw [← Real.logb_mul (ne_of_gt hC) (ne_of_gt hfrac)]
    congr 1
    have key : ((m + k).choose k) * (m + k + 1)
        = ((m + (k + 1)).choose (k + 1)) * (k + 1) := by
      have h := Nat.succ_mul_choose_eq (m + k) k
      simp only [Nat.succ_eq_add_one] at h
      rw [mul_comm]
      exact h
    rw [← mul_div_assoc, div_eq_iff (ne_of_gt hb)]
    exact_mod_cast key

theorem log2_nCrSum_eq (n k : ℤ) (hn : 0 ≤ n) (hk : 0 ≤ k) (hkn : k ≤ n) :
    log2_nCrSum n k = Real.logb 2 ((n.toNat.choose k.toNat : ℕ) : ℝ) := by
  have hterm : ∀ i ∈ Finset.range (min k (n - k)).toNat,
      Real.logb 2 (((n - min k (n - k) + (i + 1) : ℤ) : ℝ) / ((i + 1 : ℕ) : ℝ))
        = Real.logb 2
            ((((n - min k (n - k)).toNat + i + 1 : ℕ) : ℝ)
              / ((i + 1 : ℕ) : ℝ)) := by
    intro i _
    have hnum : (n - min k (n - k) + (i + 1) : ℤ)
        = (((n - min k (n - k)).toNat + i + 1 : ℕ) : ℤ) := by
      push_cast
      omega
    congr 1
    congr 1
    exact_mod_cast hnum
  have hmain : (Finset.range (min k (n - k)).toNat).sum
      (fun i => Real.logb 2
        (((n - min k (n - k) + (i + 1) : ℤ) : ℝ) / ((i + 1 : ℕ) : ℝ)))
      = Real.logb 2 ((n.toNat.choose k.toNat : ℕ) : ℝ) := by
    rw [Finset.sum_congr rfl hterm, prod_ratio_eq_choose]
    have hmK2 : (n - min k (n - k)).toNat + (min k (n - k)).toNat = n.toNat := by
      omega
    rw [hmK2]
    rcases le_or_lt k (n - k) with hle | hlt
    · have h1 : (min k (n - k)).toNat = k.toNat := by omega
      rw [h1]
    · have h1 : (min k (n - k)).toNat = n.toNat - k.toNat := by omega
      rw [h1, Nat.choose_symm (by omega : k.toNat ≤ n.toNat)]
  exact hmain

/-- C6: for all integers `n ≥ 0` and `0 ≤ k ≤ n`, the in-range value of
`log2_nCr(n, k)` is the loop sum `Σ log2((n−k+i)/i)` (with `k` reduced to
`min(k, n−k)`), and two raised to that sum equals the integer binomial
coefficient `C(n, k)` exactly (our reals are ideal, so "within floating
tolerance" holds with zero error); and `log2_nCr` returns `-Infinity`
(`⊥`) whenever `k < 0` or `k > n`. -/
theorem log2_nCr_spec :
    (∀ n k : ℤ, 0 ≤ n → 0 ≤ k → k ≤ n →
        log2_nCr n k = ((log2_nCrSum n k : ℝ) : EReal)
        ∧ (2 : ℝ) ^ (log2_nCrSum n k) = ((n.toNat.choose k.toNat : ℕ) : ℝ))
    ∧ (∀ n k : ℤ, k < 0 ∨ n < k → log2_nCr n k = (⊥ : EReal)) := by
  constructor
  · intro n k hn hk hkn
    constructor
    · rw [log2_nCr, if_neg (by omega)]
    · rw [log2_nCrSum_eq n k hn hk hkn]
      exact Real.rpow_logb (by norm_num) (by norm_num)
        (by exact_mod_cast Nat.choose_pos (by omega : k.toNat ≤ n.toNat))
  · intro n k h
    rw [log2_nCr, if_pos h]

/-- C6 witness: `2 ^ log2_nCr(5, 2) = C(5, 2) = 10`, and `log2_nCr(3, 5)`
is `-Infinity`. -/
theorem log2_nCr_spec_witness :
    (2 : ℝ) ^ (log2_nCrSum 5 2) = ((10 : ℕ) : ℝ)
    ∧ log2_nCr 3 5 = (⊥ : EReal) := by
  constructor
  · have h := (log2_nCr_spec.1 5 2 (by norm_num) (by norm_num) (by norm_num)).2
    have h10 : ((5 : ℤ).toNat.choose (2 : ℤ).toNat : ℕ) = 10 := by decide
    rw [h, h10]
  · exact log2_nCr_spec.2 3 5 (Or.inr (by norm_num))

theorem logb_secsPerYear_pos : 0 < Real.logb 10 31557600 :=
  Real.logb_pos (by norm_num) (by norm_num)

theorem logb_secsPerYear_le_eight : Real.logb 10 31557600 ≤ 8 := by
  rw [Real.logb_le_iff_le_rpow (by norm_num) (by norm_num)]
  rw [show ((8 : ℝ)) = ((8 : ℕ) : ℝ) by norm_num, Real.rpow_natCast]
  norm_num

theorem logb_ten_two_ge : (3 : ℝ) / 10 ≤ Real.logb 10 2 := by
  rw [Real.le_logb_iff_rpow_le (by norm_num) (by norm_num)]
  have h10 : ((10 : ℝ) ^ ((3 : ℝ) / 10)) ^ (10 : ℕ) ≤ (2 : ℝ) ^ (10 : ℕ) := by
    rw [← Real.rpow_natCast ((10 : ℝ) ^ ((3 : ℝ) / 10)) 10,
      ← Real.rpow_mul (by norm_num)]
    norm_num
  exact le_of_pow_le_pow_left₀ (by norm_num) (by norm_num) h10

/-- C7 counterexample: the claim as stated quantifies over every
`bits ≥ 0`, but at `bits = 0` (with a tiny positive guess rate making
`log10Years ≥ 6`) the source's first guard returns the sub-second label
instead of scientific notation. -/
theorem formatCrackTime_zero_bits_cex :
    ¬ ((0 : ℝ) ≤ 0 → 0 < (10 : ℝ) ^ (-(20 : ℝ)) →
        6 ≤ 0 * Real.logb 10 2 - Real.logb 10 ((10 : ℝ) ^ (-(20 : ℝ)))
            - Real.logb 10 31557600 →
        ∃ m e, (formatCrackTimeFromBits 0 ((10 : ℝ) ^ (-(20 : ℝ)))).label
          = CrackLabel.scientific m e) := by
  intro h
  have hgps : (0 : ℝ) < (10 : ℝ) ^ (-(20 : ℝ)) :=
    Real.rpow_pos_of_pos (by norm_num) _
  have hlogb : Real.logb 10 ((10 : ℝ) ^ (-(20 : ℝ))) = -20 :=
    Real.logb_rpow (by norm_num) (by norm_num)
  have h6 : 6 ≤ 0 * Real.logb 10 2 - Real.logb 10 ((10 : ℝ) ^ (-(20 : ℝ)))
      - Real.logb 10 31557600 := by
    rw [hlogb]
    have := logb_secsPerYear_le_eight
    linarith
  obtain ⟨m, e, he⟩ := h le_rfl hgps h6
  have hlabel : (formatCrackTimeFromBits 0 ((10 : ℝ) ^ (-(20 : ℝ)))).label
      = CrackLabel.subSecond := by
    rw [formatCrackTimeFromBits, if_pos le_rfl]
  rw [hlabel] at he
  exact CrackLabel.noConfusion he

/-- C7 (amended): for every `bits > 0` and `guessesPerSecond > 0` with
`log10Years = bits·log10(2) − log10(gps) − log10(31557600) ≥ 6`, the
function returns the scientific label with mantissa
`10^(log10Years − ⌊log10Years⌋) ∈ [1, 10)` and integer exponent
`⌊log10Years⌋ ≥ 6` — computed in log space, so over our ideal-real model
the label is a well-defined finite real, never an overflow or NaN. -/
theorem formatCrackTime_scientific (bits gps : ℝ) (hb : 0 < bits)
    (hg : 0 < gps)
    (h6 : 6 ≤ bits * Real.logb 10 2 - Real.logb 10 gps
        - Real.logb 10 31557600) :
    (formatCrackTimeFromBits bits gps).label
      = CrackLabel.scientific
          ((10 : ℝ) ^ (bits * Real.logb 10 2 - Real.logb 10 gps
              - Real.logb 10 31557600
              - (⌊bits * Real.logb 10 2 - Real.logb 10 gps
                  - Real.logb 10 31557600⌋ : ℝ)))
          ⌊bits * Real.logb 10 2 - Real.logb 10 gps - Real.logb 10 31557600⌋
    ∧ 1 ≤ (10 : ℝ) ^ (bits * Real.logb 10 2 - Real.logb 10 gps
        - Real.logb 10 31557600
        - (⌊bits * Real.logb 10 2 - Real.logb 10 gps
            - Real.logb 10 31557600⌋ : ℝ))
    ∧ (10 : ℝ) ^ (bits * Real.logb 10 2 - Real.logb 10 gps
        - Real.logb 10 31557600
        - (⌊bits * Real.logb 10 2 - Real.logb 10 gps
            - Real.logb 10 31557600⌋ : ℝ)) < 10
    ∧ (6 : ℤ) ≤ ⌊bits * Real.logb 10 2 - Real.logb 10 gps
        - Real.logb 10 31557600⌋ := by
  have hsy := logb_secsPerYear_pos
  have hsecnn : ¬ (bits * Real.logb 10 2 - Real.logb 10 gps < 0) := by
    push_neg
    linarith
  have hy6 : ¬ (bits * Real.logb 10 2 - Real.logb 10 gps
      - Real.logb 10 31557600 < 6) := by
    push_neg
    exact h6
  have hfr0 : 0 ≤ bits * Real.logb 10 2 - Real.logb 10 gps
      - Real.logb 10 31557600
      - (⌊bits * Real.logb 10 2 - Real.logb 10 gps
          - Real.logb 10 31557600⌋ : ℝ) := by
    have := Int.floor_le (bits * Real.logb 10 2 - Real.logb 10 gps
      - Real.logb 10 31557600)
    linarith
  have hfr1 : bits * Real.logb 10 2 - Real.logb 10 gps
      - Real.logb 10 31557600
      - (⌊bits * Real.logb 10 2 - Real.logb 10 gps
          - Real.logb 10 31557600⌋ : ℝ) < 1 := by
    have := Int.lt_floor_add_one (bits * Real.logb 10 2 - Real.logb 10 gps
      - Real.logb 10 31557600)
    linarith
  refine ⟨?_, ?_, ?_, ?_⟩
  · rw [formatCrackTimeFromBits, if_neg (by push_neg; exact hb),
      if_neg hsecnn, if_neg hy6]
  · calc (1 : ℝ) = (10 : ℝ) ^ (0 : ℝ) := (Real.rpow_zero 10).symm
      _ ≤ _ := by
        rw [Real.rpow_le_rpow_left_iff (by norm_num)]
        exact hfr0
  · calc (10 : ℝ) ^ (bits * Real.logb 10 2 - Real.logb 10 gps
          - Real.logb 10 31557600
          - (⌊bits * Real.logb 10 2 - Real.logb 10 gps
              - Real.logb 10 31557600⌋ : ℝ))
        < (10 : ℝ) ^ (1 : ℝ) := by
          rw [Real.rpow_lt_rpow_left_iff (by norm_num)]
          exact hfr1
      _ = 10 := Real.rpow_one 10
  · rw [Int.le_floor]
    push_cast
    exact h6

/-- C7 witness: at `bits = 256` and one guess per second the label is the
scientific one with mantissa in `[1, 10)` and exponent at least 6. -/
theorem formatCrackTime_scientific_witness :
    (formatCrackTimeFromBits 256 1).label
      = CrackLabel.scientific
          ((10 : ℝ) ^ (256 * Real.logb 10 2 - Real.logb 10 1
              - Real.logb 10 31557600
              - (⌊256 * Real.logb 10 2 - Real.logb 10 1
                  - Real.logb 10 31557600⌋ : ℝ)))
          ⌊256 * Real.logb 10 2 - Real.logb 10 1 - Real.logb 10 31557600⌋
    ∧ 1 ≤ (10 : ℝ) ^ (256 * Real.logb 10 2 - Real.logb 10 1
        - Real.logb 10 31557600
        - (⌊256 * Real.logb 10 2 - Real.logb 10 1
            - Real.logb 10 31557600⌋ : ℝ))
    ∧ (10 : ℝ) ^ (256 * Real.logb 10 2 - Real.logb 10 1
        - Real.logb 10 31557600
        - (⌊256 * Real.logb 10 2 - Real.logb 10 1
            - Real.logb 10 31557600⌋ : ℝ)) < 10
    ∧ (6 : ℤ) ≤ ⌊256 * Real.logb 10 2 - Real.logb 10 1
        - Real.logb 10 31557600⌋ :=
  formatCrackTime_scientific 256 1 (by norm_num) (by norm_num)
    (by
      have h2 := logb_ten_two_ge
      have h8 := logb_secsPerYear_le_eight
      have h256 : 256 * ((3 : ℝ) / 10) ≤ 256 * Real.logb 10 2 :=
        mul_le_mul_of_nonneg_left h2 (by norm_num)
      rw [Real.logb_one]
      linarith)

end PwdGen
